import Mathlib

/-!
Verification of the remote-archive-decompression-server's path-addressable
extraction layer.

Strings are modelled as lists of characters (`List Char`); Go's machine
integers (`int`, `int64`) are modelled as `Int` (overflow does not matter on
the inputs handled here, except `strconv.ParseInt`'s explicit 64-bit range
check, which is modelled with an explicit `2 ^ 63` bound); fallible Go
functions returning `(T, error)` are modelled with the `GoResult` type below.
-/

namespace RADS

/-- Result type for Go functions returning a value and an error. -/
inductive GoResult (α : Type) : Type where
  | ok (a : α)
  | err (msg : String)
deriving DecidableEq, Repr

/-! ## Models of Go standard-library string helpers (package strings) -/

/-- Go strings.HasPrefix(s, pat). -/
def goHasPre (s pat : List Char) : Bool := pat.isPrefixOf s

/-- Go strings.HasSuffix(s, pat). -/
def goHasSuf (s pat : List Char) : Bool := pat.isSuffixOf s

/-- Go strings.Contains(s, pat): pat occurs as a contiguous substring of s. -/
def goContains (s pat : List Char) : Bool := s.tails.any (fun t => pat.isPrefixOf t)

/-- Go strings.TrimPrefix(s, pat). -/
def goTrimPre (s pat : List Char) : List Char :=
  if pat.isPrefixOf s then s.drop pat.length else s

/-- Go strings.ReplaceAll(s, old, new) for one-character old/new. -/
def goReplaceAllChar (s : List Char) (o n : Char) : List Char :=
  s.map (fun c => if c = o then n else c)

/-- Go strings.Split(s, sep) for a one-character separator: the list of
substrings between occurrences of sep (n separators give n+1 parts;
the empty string gives one empty part). -/
def splitOnChar (sep : Char) : List Char → List (List Char)
  | [] => [[]]
  | c :: rest =>
    if c = sep then [] :: splitOnChar sep rest
    else
      match splitOnChar sep rest with
      | [] => [[c]]
      | h :: t => (c :: h) :: t

/-- Joining parts with a one-character separator (inverse of `splitOnChar`). -/
def joinWith (sep : Char) : List (List Char) → List Char
  | [] => []
  | [x] => x
  | x :: y :: t => x ++ sep :: joinWith sep (y :: t)

/-- The whitespace class of Go's unicode.IsSpace restricted to ASCII
(sufficient for the headers handled here). -/
def goIsSpace (c : Char) : Bool :=
  c = ' ' ∨ c = '\t' ∨ c = '\n' ∨ c = '\x0b' ∨ c = '\x0c' ∨ c = '\r'

/-- Go strings.TrimSpace(s) (on ASCII whitespace). -/
def goTrimSpace (s : List Char) : List Char :=
  ((s.dropWhile goIsSpace).reverse.dropWhile goIsSpace).reverse

/-! ## Model of Go's path.Clean / path.Join / path.Dir (package path)

Go's path.Clean processes the slash-separated segments of the path left to
right with an output buffer: empty and "." segments are dropped; a ".."
segment pops the previous real segment, where a rooted path treats the root
as its own parent (never pops past the root) and an unrooted path keeps
leading ".." segments.  The segment-stack formulation below is the same
algorithm. -/

/-- One step of path.Clean's segment processing. -/
def cleanPush (rooted : Bool) (stack : List (List Char)) (seg : List Char) :
    List (List Char) :=
  if seg = [] ∨ seg = ['.'] then stack
  else if seg = ['.', '.'] then
    if rooted then stack.dropLast
    else
      match stack.getLast? with
      | some last => if last = ['.', '.'] then stack ++ [seg] else stack.dropLast
      | none => [seg]
  else stack ++ [seg]

/-- Go path.Clean. -/
def goClean (p : List Char) : List Char :=
  if p = [] then ['.']
  else
    let rooted := goHasPre p ['/']
    let segs := (splitOnChar '/' p).foldl (cleanPush rooted) []
    if rooted then '/' :: joinWith '/' segs
    else if segs = [] then ['.'] else joinWith '/' segs

/-- Go path.Join(a, b): non-empty elements joined with "/" then cleaned;
the empty string when every element is empty. -/
def goJoin2 (a b : List Char) : List Char :=
  if a = [] ∧ b = [] then []
  else if a = [] then goClean b
  else if b = [] then goClean a
  else goClean (a ++ '/' :: b)

/-- Go path.Join(a) with one element. -/
def goJoin1 (a : List Char) : List Char := if a = [] then [] else goClean a

/-- The part of p up to and including its last slash (empty if p has none);
this is the dir component of Go path.Split. -/
def takeThroughLastSlash (p : List Char) : List Char :=
  (p.reverse.dropWhile (fun c => !(c == '/'))).reverse

/-- Go path.Dir. -/
def goDir (p : List Char) : List Char := goClean (takeThroughLastSlash p)

/-! ## Path resolution of the server (archiver.go) -/

/-- The message of ErrRelativePath. -/
def relPathMsg : String := "access using relative path is not allowed"

/-- The relative-path rejection condition of JoinBasePath: the raw path is
exactly "..", ends with "/..", starts with "../", or contains "/../". -/
def isRelPath (reqPath : List Char) : Bool :=
  decide (reqPath = ['.', '.']) ||
  goHasSuf reqPath ['/', '.', '.'] ||
  goHasPre reqPath ['.', '.', '/'] ||
  goContains reqPath ['/', '.', '.', '/']

/-- FixAndCleanPath: replace backslashes with slashes, ensure a leading
slash, and clean. -/
def FixAndCleanPath (p : List Char) : List Char :=
  let p1 := goReplaceAllChar p '\\' '/'
  let p2 := if goHasPre p1 ['/'] then p1 else '/' :: p1
  goClean p2

/-- JoinBasePath: reject relative paths, otherwise join the fixed base and
request paths. -/
def JoinBasePath (basePath reqPath : List Char) : GoResult (List Char) :=
  if isRelPath reqPath then .err relPathMsg
  else .ok (goJoin2 (FixAndCleanPath basePath) (FixAndCleanPath reqPath))

/-- handerReqPath: resolve a request path (the name keeps the source's
spelling).  After the JoinBasePath check, a path other than "/" is
recomputed as path.Join(rawPath + "/"), and a directory path other than
"/" gets a trailing slash. -/
def handerReqPath (p : List Char) (isDir : Bool) : GoResult (List Char) :=
  match JoinBasePath [] p with
  | .err e => .err e
  | .ok reqPath0 =>
    let reqPath1 := if p = ['/'] then reqPath0 else goJoin1 (p ++ ['/'])
    let reqPath2 := if isDir = true ∧ reqPath1 ≠ ['/'] then reqPath1 ++ ['/'] else reqPath1
    .ok reqPath2

/-! ## Pagination (archiver.go pagination) -/

/-- The page/per_page request parameters (Go ints). -/
structure PageReq where
  Page : Int
  PerPage : Int
deriving DecidableEq, Repr

/-- Two's-complement wrap of an integer into the signed 64-bit range,
modelling the overflow of Go's int arithmetic. -/
def wrap64 (x : Int) : Int := (x + 2 ^ 63) % 2 ^ 64 - 2 ^ 63

/-- Go's slice expression l[s:e]: the elements at indices s..e-1 when
0 <= s <= e <= the slice's capacity, and a runtime panic otherwise.  (The
caller of pagination builds its slice with capacity equal to its length,
so the bound here is the length.) -/
def goSlice {α : Type} (l : List α) (s e : Int) : GoResult (List α) :=
  if 0 ≤ s ∧ s ≤ e ∧ e ≤ (l.length : Int) then .ok ((l.take e.toNat).drop s.toNat)
  else .err "slice bounds out of range"

/-- pagination: default page to 1 and perPage to 10 when nonpositive, then
compute start = (page-1)*perPage and end = start+perPage in Go's wrapping
64-bit int arithmetic and return the total with the slice objs[start:end]
(end capped at the total); a start beyond the total yields an empty slice,
while a start wrapped negative by overflow makes the slice expression
panic. -/
def pagination {α : Type} (objs : List α) (req : PageReq) :
    GoResult (Nat × List α) :=
  let pageIndex := if req.Page ≤ 0 then 1 else req.Page
  let pageSize := if req.PerPage ≤ 0 then 10 else req.PerPage
  let total := objs.length
  let start := wrap64 (wrap64 (pageIndex - 1) * pageSize)
  if start > (total : Int) then .ok (total, [])
  else
    let stop := wrap64 (start + pageSize)
    let stop2 := if stop > (total : Int) then (total : Int) else stop
    match goSlice objs start stop2 with
    | .ok w => .ok (total, w)
    | .err e => .err e

/-! ## Range header parsing and streaming (archiver.go) -/

/-- A parsed HTTP byte range (inclusive start/end offsets). -/
structure httpRange where
  Start : Int
  End : Int
deriving DecidableEq, Repr

/-- The whitespace class of Go's regexp escape for spaces
(tab, newline, form feed, carriage return, space). -/
def reSpace (c : Char) : Bool :=
  c = '\t' ∨ c = '\n' ∨ c = '\x0c' ∨ c = '\r' ∨ c = ' '

/-- Decimal digit test used by the ParseInt model. -/
def isDigitChar (c : Char) : Bool := decide ('0' ≤ c ∧ c ≤ '9')

/-- The numeric value of a list of decimal digits. -/
def decVal (ds : List Char) : Nat :=
  ds.foldl (fun a c => a * 10 + (c.toNat - '0'.toNat)) 0

/-- Go strconv.ParseInt(s, 10, 64): an optional sign followed by a nonempty
run of decimal digits; a value outside the signed 64-bit range is returned
clamped at the range's endpoint (with an error the caller below ignores);
anything else is a syntax error. -/
def parseInt64 (s : List Char) : Option Int :=
  let neg := goHasPre s ['-']
  let ds := if goHasPre s ['-'] ∨ goHasPre s ['+'] then s.drop 1 else s
  if ds = [] then none
  else if ds.all isDigitChar then
    let i : Int := if neg then -(decVal ds : Int) else (decVal ds : Int)
    if i > 2 ^ 63 - 1 then some (2 ^ 63 - 1)
    else if i < -(2 ^ 63) then some (-(2 ^ 63))
    else some i
  else none

/-- toInt64: trim whitespace and ParseInt, ignoring the error (0 on a
syntax error, the clamped value on a range error). -/
def toInt64 (s : List Char) : Int := (parseInt64 (goTrimSpace s)).getD 0

/-- The anchored Go regular expression match of parseRangeHeader: the header
must be leading whitespace, the literal "bytes", whitespace, "=", then the
captured remainder, where the greedy whitespace run after "=" absorbs the
maximal run of space characters and the dot of the capturing group cannot
match a newline.  Returns the capture on a match. -/
def rangeRegexCapture (s : List Char) : Option (List Char) :=
  let s1 := s.dropWhile reSpace
  if goHasPre s1 ['b', 'y', 't', 'e', 's'] then
    match (s1.drop 5).dropWhile reSpace with
    | '=' :: s3 =>
      let rest := s3.dropWhile reSpace
      if '\n' ∈ rest then none else some rest
    | _ => none
  else none

/-- parseRangeHeader on one comma-separated range spec: split on "-" into
exactly two parts; an empty first part is the suffix form (start =
total-1-n, end = total-1), an empty second part runs to total-1, and
otherwise both parts are parsed; then validate start <= end < total and
start < total. -/
def parseOneRange (totalLength : Int) (spec : List Char) : GoResult httpRange :=
  match splitOnChar '-' spec with
  | [p0, p1] =>
    let se : Int × Int :=
      if p0 = [] then (totalLength - 1 - toInt64 p1, totalLength - 1)
      else if p1 = [] then (toInt64 p0, totalLength - 1)
      else (toInt64 p0, toInt64 p1)
    if se.1 > se.2 ∨ se.1 ≥ totalLength ∨ se.2 ≥ totalLength then
      .err "Invalid Range Header"
    else .ok ⟨se.1, se.2⟩
  | _ => .err "Invalid Range Header"

/-- The loop of parseRangeHeader over the comma-separated range specs:
each spec is parsed and validated in order, the first failure aborting. -/
def parseRanges (totalLength : Int) : List (List Char) → GoResult (List httpRange)
  | [] => .ok []
  | spec :: rest =>
    match parseOneRange totalLength spec with
    | .err e => .err e
    | .ok r =>
      match parseRanges totalLength rest with
      | .err e => .err e
      | .ok rs => .ok (r :: rs)

/-- parseRangeHeader: match the header against the bytes= pattern and parse
every comma-separated range spec of the capture. -/
def parseRangeHeader (header : List Char) (totalLength : Int) :
    GoResult (List httpRange) :=
  match rangeRegexCapture header with
  | none => .err "Invalid Range Header"
  | some cap => parseRanges totalLength (splitOnChar ',' cap)

/-! ## The one-pass stream and MyReadAtReader (archiver.go)

A decompressing reader is modelled as a list of chunks: one Read call
delivers bytes from the first chunk only (at most the buffer's length),
which is how a chunked or decompressing stream legitimately returns fewer
bytes than requested; a read at the exhausted stream is io.EOF.  A
zero-length read returns zero bytes and no error without consuming. -/

/-- One Go Read call with a buffer of length k against a chunked stream:
the bytes delivered, the remaining stream, and the error flag (io.EOF). -/
def readOnce (chunks : List (List Nat)) (k : Nat) :
    List Nat × List (List Nat) × Bool :=
  if k = 0 then ([], chunks, false)
  else
    match chunks with
    | [] => ([], [], true)
    | c :: rest =>
      (c.take k, if c.drop k = [] then rest else c.drop k :: rest, false)

/-- MyReadAtReader.ReadAt with a buffer of length plen at offset off:
reject an out-of-bounds offset; issue one Read call for a discard buffer
of off bytes and one Read call for the payload, returning the payload
bytes and io.EOF when fewer than plen bytes came back. -/
def MyReadAt (chunks : List (List Nat)) (size : Int) (plen : Nat) (off : Int) :
    List Nat × Option String :=
  if off < 0 ∨ off ≥ size then ([], some "EOF")
  else
    let d := readOnce chunks off.toNat
    if d.2.2 = true then ([], some "EOF")
    else
      let r := readOnce d.2.1 plen
      if r.2.2 = true then ([], some "EOF")
      else (r.1, if r.1.length < plen then some "EOF" else none)

/-! ## The /down response (archiver.go SuccessStreamResp / ErrorStrResp)

Only the response fields the claims are about are modelled: the HTTP
status line, the code field of the JSON error envelope (with its message),
the streamed body bytes, and the Content-Range header.  The fixed success
headers (Accept-Ranges, Content-Type, Content-Disposition, ...) are set
before the range handling and are not modelled. -/

/-- The observable /down response. -/
structure DownResponse where
  status : Nat
  bodyCode : Option Int
  message : Option String
  body : List Nat
  contentRange : Option (Int × Int × Int)
deriving DecidableEq, Repr

/-- ErrorStrResp: the JSON error envelope carrying the code, written with
c.JSON(200, ...), so the HTTP status line is always 200. -/
def ErrorStrResp (msg : String) (code : Int) : DownResponse :=
  { status := 200, bodyCode := some code, message := some msg,
    body := [], contentRange := none }

/-- The full-body branch of SuccessStreamResp: c.Status(200) and io.Copy of
the whole decompressed stream. -/
def fullBodyResp (chunks : List (List Nat)) : DownResponse :=
  { status := 200, bodyCode := none, message := none,
    body := chunks.flatten, contentRange := none }

/-- SuccessStreamResp after the fixed headers: a nonempty Range header is
parsed (a failure answers ErrorStrResp with code 416); exactly one parsed
range is served through MyReadAt as 206 with Content-Range (a read error
answers ErrorStrResp with code 500); any other case streams the full body
with status 200. -/
def SuccessStreamResp (rangeHeader : List Char) (fsize : Int)
    (chunks : List (List Nat)) : DownResponse :=
  if rangeHeader ≠ [] then
    match parseRangeHeader rangeHeader fsize with
    | .err msg => ErrorStrResp msg 416
    | .ok [r] =>
      let len := r.End - r.Start + 1
      let res := MyReadAt chunks fsize len.toNat r.Start
      match res.2 with
      | some e => ErrorStrResp e 500
      | none =>
        { status := 206, bodyCode := none, message := none, body := res.1,
          contentRange := some (r.Start, r.End, fsize) }
    | .ok _ => fullBodyResp chunks
  else fullBodyResp chunks

/-! ## Entry filters and extraction (archiver.go filters, mholt archiver loop) -/

/-- An archive entry: its archive-relative name (forward slashes, no leading
slash) and whether it is a directory. -/
structure GoFile where
  nameInArchive : List Char
  isDir : Bool
deriving DecidableEq, Repr

/-- The control result a file handler returns to the traversal: continue,
or skip the subtree around this entry (fs.SkipDir). -/
inductive HRes : Type where
  | ok
  | skip
deriving DecidableEq, Repr

/-- Whether an entry name passes the traversal's path restriction.
Modelled from the spec: a path restriction limits the iteration to the
entries strictly below the restricting prefix; no restriction admits all
entries.  (The restriction handling lives in the external archive library,
not under src/.) -/
def includedB : Option (List Char) → List Char → Bool
  | none, _ => true
  | some p, name => if name = p then false else p.isPrefixOf name

/-- Whether an entry name falls under an already-skipped subtree. -/
def skippedB (skips : List (List Char)) (name : List Char) : Bool :=
  skips.any (fun s => s.isPrefixOf name)

/-- One traversal step.  Modelled from the spec: the library calls the
handler on each entry that passes the restriction and is not under a
skipped subtree; a handler may record the entry; when the handler signals
skip on a file entry the file's parent directory (with a trailing slash)
is added to the skipped subtrees, and a directory entry adds its own
name. -/
def extractStep (restrict : Option (List Char)) (handler : GoFile → Bool × HRes)
    (st : List GoFile × List (List Char)) (f : GoFile) :
    List GoFile × List (List Char) :=
  if includedB restrict f.nameInArchive = false then st
  else if skippedB st.2 f.nameInArchive = true then st
  else
    let hr := handler f
    let acc := if hr.1 = true then st.1 ++ [f] else st.1
    match hr.2 with
    | .ok => (acc, st.2)
    | .skip =>
      (acc, st.2 ++ [if f.isDir then f.nameInArchive else goDir f.nameInArchive ++ ['/']])

/-- The traversal: fold the step over the archive's entry stream in its
native order, returning the recorded entries. -/
def extractGo (restrict : Option (List Char)) (handler : GoFile → Bool × HRes)
    (entries : List GoFile) : List GoFile :=
  (entries.foldl (extractStep restrict handler) ([], [])).1

/-- The acceptance condition of DirFilter: anchor the entry name with a
leading slash, strip the dir prefix, and keep names with zero slashes and
nonempty, or exactly one slash as a suffix. -/
def DirFilterKeep (dir : List Char) (f : GoFile) : Bool :=
  let fileDir := goTrimPre ('/' :: f.nameInArchive) dir
  (fileDir.count '/' == 0 && decide (fileDir ≠ [])) ||
  (fileDir.count '/' == 1 && goHasSuf fileDir ['/'])

/-- DirFilter as a handler: record matching entries, never skip. -/
def DirFilterH (dir : List Char) : GoFile → Bool × HRes :=
  fun f => (DirFilterKeep dir f, .ok)

/-- NoFilter as a handler: record every entry, never skip. -/
def NoFilterH : GoFile → Bool × HRes := fun _ => (true, .ok)

/-- FileFilter as a handler: ignore directories; compute the entry's parent
directory via path.Dir ("." becoming empty); when the requested path is not
under the slash-anchored parent, signal skip; otherwise record the entry
whose slash-anchored name equals the requested path. -/
def FileFilterH (filePath : List Char) : GoFile → Bool × HRes :=
  fun f =>
    if f.isDir then (false, .ok)
    else
      let fileDir0 := goDir f.nameInArchive
      let fileDir := if fileDir0 = ['.'] then [] else fileDir0
      if ('/' :: fileDir).isPrefixOf filePath = false then (false, .skip)
      else (decide (filePath = '/' :: f.nameInArchive), .ok)

/-- ArchiverExtractor.ExtractDirs: traverse the full stream (the extractor's
pathsInArchive is never set, hence no restriction) under DirFilter. -/
def ExtractDirs (entries : List GoFile) (dir : List Char) : List GoFile :=
  extractGo none (DirFilterH dir) entries

/-- ArchiverExtractor.CascadeExtractDirs: restrict the traversal to the
requested dir with its leading slash trimmed (no restriction for "/"),
and record every entry with NoFilter. -/
def CascadeExtractDirs (entries : List GoFile) (dir : List Char) : List GoFile :=
  let pia : Option (List Char) :=
    if dir = ['/'] then none else some (goTrimPre dir ['/'])
  extractGo pia NoFilterH entries

/-- ArchiverExtractor.ExtractFile: traverse the full stream under
FileFilter; an empty result is the "file not found" error, otherwise the
first recorded entry is returned. -/
def ExtractFile (entries : List GoFile) (filePath : List Char) : GoResult GoFile :=
  match extractGo none (FileFilterH filePath) entries with
  | [] => .err "file not found"
  | f :: _ => .ok f

/-! ## Spec-side predicates (written from the spec's words, for comparison
with the source-derived definitions above) -/

/-- The spec's directory-filter condition: the archive-relative name,
anchored with a leading slash and with the directory prefix stripped,
either contains zero slashes and is non-empty, or contains exactly one
slash occurring at the end. -/
def specDirKeep (dir : List Char) (f : GoFile) : Bool :=
  let s := goTrimPre ('/' :: f.nameInArchive) dir
  (s.count '/' == 0 && decide (s ≠ [])) ||
  (s.getLast? == some '/' && s.dropLast.count '/' == 0)

/-- The spec's cascade condition: every entry of the full recursive subtree
strictly below the path (no restriction for the root path). -/
def specCascadeKeep (p : List Char) (f : GoFile) : Bool :=
  if p = ['/'] then true
  else p.isPrefixOf ('/' :: f.nameInArchive) && decide ('/' :: f.nameInArchive ≠ p)

/-- A normalized archive-relative name: every slash-separated segment is
nonempty and is neither "." nor "..". -/
def cleanRel (n : List Char) : Bool :=
  (splitOnChar '/' n).all (fun seg =>
    decide (seg ≠ [] ∧ seg ≠ ['.'] ∧ seg ≠ ['.', '.']))

/-- The spec's worked example entry stream:
a/, a/b.txt, a/c/, a/c/d.txt. -/
def exampleEntries : List GoFile :=
  [⟨['a', '/'], true⟩,
   ⟨['a', '/', 'b', '.', 't', 'x', 't'], false⟩,
   ⟨['a', '/', 'c', '/'], true⟩,
   ⟨['a', '/', 'c', '/', 'd', '.', 't', 'x', 't'], false⟩]

/-! # Theorems -/

/-! ## Helper lemmas about splitting and joining -/

theorem splitOnChar_ne_nil (sep : Char) (s : List Char) : splitOnChar sep s ≠ [] := by
  cases s with
  | nil => simp [splitOnChar]
  | cons c rest =>
    simp only [splitOnChar]
    split
    · simp
    · cases h : splitOnChar sep rest <;> simp

theorem splitOnChar_cons_sep (sep : Char) (rest : List Char) :
    splitOnChar sep (sep :: rest) = [] :: splitOnChar sep rest := by
  simp [splitOnChar]

theorem splitOnChar_cons_ne (sep c : Char) (rest : List Char) (hc : c ≠ sep)
    (h : List Char) (t : List (List Char)) (hs : splitOnChar sep rest = h :: t) :
    splitOnChar sep (c :: rest) = (c :: h) :: t := by
  simp [splitOnChar, hc, hs]

theorem splitOnChar_append_sep (sep : Char) (a b : List Char) :
    splitOnChar sep (a ++ sep :: b) = splitOnChar sep a ++ splitOnChar sep b := by
  induction a with
  | nil => simp [splitOnChar_cons_sep, splitOnChar]
  | cons c a ih =>
    by_cases hc : c = sep
    · subst hc
      simp only [List.cons_append, splitOnChar_cons_sep, ih]
    · obtain ⟨h, t, hs⟩ : ∃ h t, splitOnChar sep a = h :: t := by
        cases hsp : splitOnChar sep a with
        | nil => exact absurd hsp (splitOnChar_ne_nil sep a)
        | cons x y => exact ⟨x, y, rfl⟩
      have hs2 : splitOnChar sep (a ++ sep :: b) = (h :: t) ++ splitOnChar sep b := by
        rw [ih, hs]
      rw [List.cons_append, splitOnChar_cons_ne sep c _ hc h (t ++ splitOnChar sep b) hs2,
        splitOnChar_cons_ne sep c a hc h t hs]
      simp

theorem splitOnChar_of_not_mem (sep : Char) (l : List Char) (h : sep ∉ l) :
    splitOnChar sep l = [l] := by
  induction l with
  | nil => rfl
  | cons c rest ih =>
    have hc : c ≠ sep := by
      intro he; exact h (he ▸ List.mem_cons_self c rest)
    have hr : sep ∉ rest := fun hm => h (List.mem_cons_of_mem c hm)
    exact splitOnChar_cons_ne sep c rest hc rest [] (ih hr)

theorem joinWith_cons_cons (sep : Char) (x y : List Char) (t : List (List Char)) :
    joinWith sep (x :: y :: t) = x ++ sep :: joinWith sep (y :: t) := by
  simp [joinWith]

theorem joinWith_splitOnChar (sep : Char) (s : List Char) :
    joinWith sep (splitOnChar sep s) = s := by
  induction s with
  | nil => rfl
  | cons c rest ih =>
    obtain ⟨h, t, hs⟩ : ∃ h t, splitOnChar sep rest = h :: t := by
      cases hsp : splitOnChar sep rest with
      | nil => exact absurd hsp (splitOnChar_ne_nil sep rest)
      | cons x y => exact ⟨x, y, rfl⟩
    by_cases hc : c = sep
    · subst hc
      rw [splitOnChar_cons_sep, hs, joinWith_cons_cons, List.nil_append, ← hs, ih]
    · rw [splitOnChar_cons_ne sep c rest hc h t hs]
      cases t with
      | nil =>
        have : joinWith sep [h] = rest := by rw [← hs, ih]
        simpa [joinWith] using congrArg (c :: ·) this
      | cons t0 ts =>
        rw [joinWith_cons_cons]
        have : joinWith sep (h :: t0 :: ts) = rest := by rw [← hs, ih]
        rw [joinWith_cons_cons] at this
        simp [← this]

/-! ## Bridges between boolean string tests and their propositional forms -/

theorem goContains_iff (s pat : List Char) :
    goContains s pat = true ↔ List.IsInfix pat s := by
  simp only [goContains, List.any_eq_true, List.mem_tails,
    List.isPrefixOf_iff_prefix, List.infix_iff_prefix_suffix]
  constructor
  · rintro ⟨t, h1, h2⟩; exact ⟨t, h2, h1⟩
  · rintro ⟨t, h1, h2⟩; exact ⟨t, h2, h1⟩

theorem goHasSuf_singleton_iff (s : List Char) (c : Char) :
    goHasSuf s [c] = true ↔ ∃ t, s = t ++ [c] := by
  simp only [goHasSuf, List.isSuffixOf_iff_suffix]
  constructor
  · rintro ⟨t, ht⟩; exact ⟨t, ht.symm⟩
  · rintro ⟨t, ht⟩; exact ⟨t, ht.symm⟩

/-! ## Claim C1 -/

/-- Claim C1: path resolution through handerReqPath (hence /list, /get and
/down) fails with the relative-path-denied error exactly when the raw path
is ".." or ends with "/.." or starts with "../" or contains "/../"; every
other raw path resolves without this error. -/
theorem c1_relative_path_rejection (p : List Char) (isDir : Bool) :
    (∃ e, handerReqPath p isDir = .err e) ↔
      (p = ['.', '.'] ∨ List.IsSuffix ['/', '.', '.'] p ∨
       List.IsPrefix ['.', '.', '/'] p ∨ List.IsInfix ['/', '.', '.', '/'] p) := by
  have hbridge : isRelPath p = true ↔
      (p = ['.', '.'] ∨ List.IsSuffix ['/', '.', '.'] p ∨
       List.IsPrefix ['.', '.', '/'] p ∨ List.IsInfix ['/', '.', '.', '/'] p) := by
    simp only [isRelPath, Bool.or_eq_true, decide_eq_true_eq, goHasSuf,
      List.isSuffixOf_iff_suffix, goHasPre, List.isPrefixOf_iff_prefix,
      goContains_iff]
    tauto
  by_cases hrel : isRelPath p = true
  · simp only [handerReqPath, JoinBasePath, hrel, if_true]
    exact ⟨fun _ => hbridge.mp hrel, fun _ => ⟨relPathMsg, rfl⟩⟩
  · simp only [handerReqPath, JoinBasePath, hrel, if_false, Bool.false_eq_true]
    constructor
    · rintro ⟨e, he⟩; cases he
    · intro h; exact absurd (hbridge.mpr h) hrel

/-! ## Claim C7 (code bug: handerReqPath discards the normalized path) -/

/-- Claim C7 evaluated on the code: for the raw path "a//\b" (with a literal
backslash) handerReqPath returns "a/\b" - the backslash is not replaced and
no leading slash is ensured, because for any raw path other than "/" the
function overwrites the JoinBasePath result with Go path.Clean of the raw
path plus "/".  FixAndCleanPath itself does perform the claimed
normalization (as its doc comment states), and the empty-path directory
example does resolve to "/". -/
theorem c7_path_resolution_eval :
    handerReqPath ['a', '/', '/', '\\', 'b'] false = .ok ['a', '/', '\\', 'b'] ∧
    ['a', '/', '\\', 'b'] ≠ ['/', 'a', '/', 'b'] ∧
    FixAndCleanPath ['a', '/', '/', '\\', 'b'] = ['/', 'a', '/', 'b'] ∧
    handerReqPath [] true = .ok ['/'] := by decide

/-! ## Claim C6 (code bug: single-Read discard and payload) -/

/-- Claim C6 evaluated on the code: MyReadAtReader.ReadAt issues exactly one
Read call for the discard buffer and one for the payload.  On the 4-byte
stream delivered in chunks [1] and [2,3,4], reading 1 byte at offset 2
under-discards (the single discard Read returns only the 1-byte first
chunk) and silently returns byte 2 where the stream's byte at offset 2 is
3; on chunks [1,2] and [3,4], reading 4 bytes at offset 0 returns only 2
bytes with an EOF error even though the stream holds 4.  (A zero-byte
discard is a no-op, as claimed.) -/
theorem c6_single_read_eval :
    MyReadAt [[1], [2, 3, 4]] 4 1 2 = ([2], none) ∧
    List.flatten [[1], [2, 3, 4]] = [1, 2, 3, 4] ∧
    (([1, 2, 3, 4] : List Nat).drop 2).take 1 = [3] ∧
    MyReadAt [[1, 2], [3, 4]] 4 4 0 = ([1, 2], some "EOF") ∧
    List.flatten [[1, 2], [3, 4]] = [1, 2, 3, 4] := by decide

/-! ## Claim C9 (corrected: the start computation wraps in 64-bit
arithmetic, and an overflow-wrapped negative start panics) -/

/-- Claim C9 counterexample: for page = 2^62 and perPage = 4 over a
one-item list, Go's wrapping int arithmetic turns start = (2^62-1)*4 into
-4, the start > total guard does not fire, and the slice expression
objs[-4:0] panics - so an out-of-range page produces a runtime error, not
the empty slice the claim promises (mathematically (2^62-1)*4 exceeds the
total 1, so the claim's formula demands the empty slice here). -/
theorem c9_counterexample :
    pagination [0] ⟨2 ^ 62, 4⟩ = .err "slice bounds out of range" ∧
    wrap64 (wrap64 ((2 : Int) ^ 62 - 1) * 4) = -4 ∧
    ((2 : Int) ^ 62 - 1) * 4 > 1 := by decide

/-- Claim C9 as amended: pagination defaults page to 1 when page <= 0 and
perPage to 10 when perPage <= 0 and computes start = (page-1)*perPage in
Go's wrapping 64-bit int arithmetic; whenever the defaulted page*perPage
product stays within int64 (no overflow), it returns the total with the
items in [start, min(start+perPage, total)) - an out-of-range page
yielding an empty slice, never an error - and the returned window is a
sublist of the input, so order is preserved.  When the product overflows,
start wraps and a negative start makes the slice expression panic, per
the counterexample. -/
theorem c9_pagination {α : Type} (objs : List α) (page perPage : Int)
    (hov : (if page ≤ 0 then 1 else page) * (if perPage ≤ 0 then 10 else perPage)
      ≤ 2 ^ 63 - 1) :
    pagination objs ⟨page, perPage⟩ =
      .ok (objs.length,
        if ((if page ≤ 0 then 1 else page) - 1) * (if perPage ≤ 0 then 10 else perPage)
            > (objs.length : Int) then []
        else
          (objs.drop ((((if page ≤ 0 then 1 else page) - 1) *
              (if perPage ≤ 0 then 10 else perPage)).toNat)).take
            ((if perPage ≤ 0 then 10 else perPage).toNat)) ∧
    List.Sublist
      (if ((if page ≤ 0 then 1 else page) - 1) * (if perPage ≤ 0 then 10 else perPage)
          > (objs.length : Int) then []
      else
        (objs.drop ((((if page ≤ 0 then 1 else page) - 1) *
            (if perPage ≤ 0 then 10 else perPage)).toNat)).take
          ((if perPage ≤ 0 then 10 else perPage).toNat)) objs := by
  have hp1 : (1 : Int) ≤ (if page ≤ 0 then 1 else page) := by
    split <;> omega
  have hpp1 : (1 : Int) ≤ (if perPage ≤ 0 then 10 else perPage) := by
    split <;> omega
  set p := (if page ≤ 0 then 1 else page) with hp
  set pp := (if perPage ≤ 0 then 10 else perPage) with hpp
  have hpmul : p * 1 ≤ p * pp := mul_le_mul_of_nonneg_left hpp1 (by omega)
  rw [mul_one] at hpmul
  have hppmul : 1 * pp ≤ p * pp := mul_le_mul_of_nonneg_right hp1 (by omega)
  rw [one_mul] at hppmul
  have hstart0 : 0 ≤ (p - 1) * pp := mul_nonneg (by omega) (by omega)
  have hstartle : (p - 1) * pp ≤ p * pp :=
    mul_le_mul_of_nonneg_right (by omega) (by omega)
  have hsum : (p - 1) * pp + pp = p * pp := by ring
  have hw1 : wrap64 (p - 1) = p - 1 := by
    unfold wrap64
    omega
  have hw2 : wrap64 ((p - 1) * pp) = (p - 1) * pp := by
    unfold wrap64
    omega
  have hw3 : wrap64 ((p - 1) * pp + pp) = (p - 1) * pp + pp := by
    unfold wrap64
    omega
  have hmain : pagination objs ⟨page, perPage⟩ =
      .ok (objs.length,
        if (p - 1) * pp > (objs.length : Int) then []
        else (objs.drop ((p - 1) * pp).toNat).take pp.toNat) := by
    unfold pagination
    simp only [← hp, ← hpp]
    rw [hw1, hw2]
    by_cases hout : (p - 1) * pp > (objs.length : Int)
    · simp [hout]
    · simp only [if_neg hout]
      rw [hw3]
      have hcond : 0 ≤ (p - 1) * pp ∧
          (p - 1) * pp ≤ (if (p - 1) * pp + pp > (objs.length : Int)
            then (objs.length : Int) else (p - 1) * pp + pp) ∧
          (if (p - 1) * pp + pp > (objs.length : Int)
            then (objs.length : Int) else (p - 1) * pp + pp) ≤ (objs.length : Int) := by
        refine ⟨hstart0, ?_, ?_⟩ <;> split <;> omega
      unfold goSlice
      rw [if_pos hcond]
      show GoResult.ok (objs.length, _) = GoResult.ok (objs.length, _)
      congr 1
      congr 1
      rw [List.drop_take]
      by_cases hsum2 : (p - 1) * pp + pp > (objs.length : Int)
      · rw [if_pos hsum2]
        have hlen : (objs.drop ((p - 1) * pp).toNat).length =
            objs.length - ((p - 1) * pp).toNat := List.length_drop _ _
        rw [List.take_of_length_le (by omega),
          List.take_of_length_le (by omega)]
      · rw [if_neg hsum2]
        congr 1
        omega
  refine ⟨hmain, ?_⟩
  by_cases hout : (p - 1) * pp > (objs.length : Int)
  · simp [hout]
  · simp only [if_neg hout]
    exact (List.take_sublist _ _).trans (List.drop_sublist _ _)

/-- Witness for c9_pagination at a five-item list with page 2 and
perPage 2 (and, through the defaults, page 0 behaving as page 1). -/
theorem c9_pagination_witness :
    pagination [1, 2, 3, 4, 5] ⟨2, 2⟩ = .ok (5, [3, 4]) ∧
    List.Sublist [3, 4] [1, 2, 3, 4, 5] ∧
    pagination [1, 2, 3, 4, 5] ⟨0, 2⟩ = .ok (5, [1, 2]) := by
  have h1 := c9_pagination [1, 2, 3, 4, 5] 2 2 (by decide)
  have h2 := c9_pagination [1, 2, 3, 4, 5] 0 2 (by decide)
  exact ⟨h1.1.trans (by decide), by decide, h2.1.trans (by decide)⟩

/-! ## Claim C2 (corrected: the 416 code is only in the JSON body, the HTTP
status line stays 200) -/

/-- Claim C2 counterexample: the /down range header "bytes=5-2" over a
10-byte file fails range validation (start > end), yet the HTTP status
line of the response is 200, not 416 as the claim states; the 416 appears
only in the JSON body's code field. -/
theorem c2_counterexample :
    parseRangeHeader ['b', 'y', 't', 'e', 's', '=', '5', '-', '2'] 10 =
      .err "Invalid Range Header" ∧
    (SuccessStreamResp ['b', 'y', 't', 'e', 's', '=', '5', '-', '2'] 10 []).status = 200 ∧
    ¬ (SuccessStreamResp ['b', 'y', 't', 'e', 's', '=', '5', '-', '2'] 10 []).status = 416 ∧
    (SuccessStreamResp ['b', 'y', 't', 'e', 's', '=', '5', '-', '2'] 10 []).bodyCode =
      some 416 := by decide

/-- Claim C2 as amended: for every nonempty /down Range header whose
parsing or validation fails, the response carries error code 416 in the
JSON body's code field, while the actual HTTP status line of the response
is 200 (the error envelope is always written with HTTP status 200). -/
theorem c2_range_error_envelope (hdr : List Char) (S : Int)
    (chunks : List (List Nat)) (msg : String) (hne : hdr ≠ [])
    (hp : parseRangeHeader hdr S = .err msg) :
    (SuccessStreamResp hdr S chunks).bodyCode = some 416 ∧
    (SuccessStreamResp hdr S chunks).status = 200 := by
  simp [SuccessStreamResp, hne, hp, ErrorStrResp]

/-- Witness for c2_range_error_envelope at the header "bytes=5-2" and
size 10. -/
theorem c2_range_error_envelope_witness :
    (SuccessStreamResp ['b', 'y', 't', 'e', 's', '=', '5', '-', '2'] 10 []).bodyCode =
      some 416 ∧
    (SuccessStreamResp ['b', 'y', 't', 'e', 's', '=', '5', '-', '2'] 10 []).status = 200 :=
  c2_range_error_envelope ['b', 'y', 't', 'e', 's', '=', '5', '-', '2'] 10 []
    "Invalid Range Header" (by decide) (by decide)

/-! ## Claim C3 (corrected: a valid multi-range request is answered with
the full body, not rejected) -/

/-- Claim C3 counterexample: the /down Range header "bytes=0-1,3-4" over a
10-byte file parses into two valid ranges, and the response is not an
error: it is HTTP 200 carrying the full body - contradicting the claim
that multi-range requests are rejected with an error and never answered
with the full body. -/
theorem c3_counterexample :
    parseRangeHeader ['b', 'y', 't', 'e', 's', '=', '0', '-', '1', ',', '3', '-', '4'] 10 =
      .ok [⟨0, 1⟩, ⟨3, 4⟩] ∧
    (SuccessStreamResp ['b', 'y', 't', 'e', 's', '=', '0', '-', '1', ',', '3', '-', '4']
        10 [[7], [8, 9]]).bodyCode = none ∧
    (SuccessStreamResp ['b', 'y', 't', 'e', 's', '=', '0', '-', '1', ',', '3', '-', '4']
        10 [[7], [8, 9]]).status = 200 ∧
    (SuccessStreamResp ['b', 'y', 't', 'e', 's', '=', '0', '-', '1', ',', '3', '-', '4']
        10 [[7], [8, 9]]).body = [7, 8, 9] := by decide

/-- Claim C3 as amended: a /down Range header with two or more
comma-separated ranges is never served as a multipart response; when every
range is individually valid the header is ignored and the request is
answered with HTTP 200 and the full body (an error envelope arises only
when some range fails to parse or validate). -/
theorem c3_multi_range_full_body (hdr : List Char) (S : Int)
    (chunks : List (List Nat)) (rs : List httpRange) (hne : hdr ≠ [])
    (hp : parseRangeHeader hdr S = .ok rs) (hlen : 2 ≤ rs.length) :
    SuccessStreamResp hdr S chunks = fullBodyResp chunks := by
  match rs, hlen with
  | r1 :: r2 :: rest, _ =>
    simp [SuccessStreamResp, hne, hp]

/-- Witness for c3_multi_range_full_body at the header "bytes=0-1,3-4",
size 10 and a two-chunk stream. -/
theorem c3_multi_range_full_body_witness :
    SuccessStreamResp ['b', 'y', 't', 'e', 's', '=', '0', '-', '1', ',', '3', '-', '4']
        10 [[7], [8, 9]] = fullBodyResp [[7], [8, 9]] :=
  c3_multi_range_full_body _ 10 [[7], [8, 9]] [⟨0, 1⟩, ⟨3, 4⟩]
    (by decide) (by decide) (by decide)

/-! ## Claim C10 -/

theorem dropWhile_eq_self_of_all_neg (p : Char → Bool) (l : List Char)
    (h : ∀ a ∈ l, p a = false) : l.dropWhile p = l := by
  cases l with
  | nil => rfl
  | cons c r => simp [List.dropWhile_cons, h c (List.mem_cons_self c r)]

theorem isDigitChar_not_goSpace (c : Char) (h : isDigitChar c = true) :
    goIsSpace c = false := by
  have h2 : '0' ≤ c ∧ c ≤ '9' := by simpa [isDigitChar] using h
  by_contra hb
  have hs : goIsSpace c = true := by revert hb; cases goIsSpace c <;> simp
  have hd : c = ' ' ∨ c = '\t' ∨ c = '\n' ∨ c = '\x0b' ∨ c = '\x0c' ∨ c = '\r' := by
    simpa [goIsSpace] using hs
  rcases hd with rfl | rfl | rfl | rfl | rfl | rfl <;> exact absurd h2.1 (by decide)

theorem isDigitChar_ne (c : Char) (h : isDigitChar c = true) :
    c ≠ '\n' ∧ c ≠ ',' ∧ c ≠ '-' ∧ c ≠ '+' := by
  have h2 : '0' ≤ c ∧ c ≤ '9' := by simpa [isDigitChar] using h
  refine ⟨?_, ?_, ?_, ?_⟩ <;> rintro rfl <;> exact absurd h2.1 (by decide)

theorem toInt64_digits (ds : List Char) (hne : ds ≠ [])
    (hdig : ds.all isDigitChar = true)
    (hfit : (decVal ds : Int) ≤ 2 ^ 63 - 1) :
    toInt64 ds = (decVal ds : Int) := by
  have hds : ∀ c ∈ ds, isDigitChar c = true := List.all_eq_true.mp hdig
  have htrim : goTrimSpace ds = ds := by
    unfold goTrimSpace
    rw [dropWhile_eq_self_of_all_neg _ _
        (fun a ha => isDigitChar_not_goSpace a (hds a ha)),
      dropWhile_eq_self_of_all_neg _ _
        (fun a ha => isDigitChar_not_goSpace a (hds a (List.mem_reverse.mp ha))),
      List.reverse_reverse]
  obtain ⟨c, r, rfl⟩ : ∃ c r, ds = c :: r := by
    cases ds with
    | nil => exact absurd rfl hne
    | cons c r => exact ⟨c, r, rfl⟩
  have hcd := isDigitChar_ne c (hds c (List.mem_cons_self c r))
  have hpre1 : goHasPre (c :: r) ['-'] = false := by
    simp [goHasPre, List.isPrefixOf, beq_eq_false_iff_ne, Ne.symm hcd.2.2.1]
  have hpre2 : goHasPre (c :: r) ['+'] = false := by
    simp [goHasPre, List.isPrefixOf, beq_eq_false_iff_ne, Ne.symm hcd.2.2.2]
  have h0 : (0 : Int) ≤ (decVal (c :: r) : Int) := Int.natCast_nonneg _
  have hover : ¬ ((decVal (c :: r) : Int) > 2 ^ 63 - 1) := by omega
  have hunder : ¬ ((decVal (c :: r) : Int) < -(2 ^ 63)) := by omega
  unfold toInt64
  rw [htrim]
  unfold parseInt64
  rw [hpre1, hpre2]
  simp [hne, hdig, hover, hunder]
  rw [if_neg (by omega), if_neg (by omega)]
  rfl

/-- Claim C10: for every suffix-form Range header "bytes=-N" (N a nonempty
decimal digit string whose value fits in int64) over a file of size S with
0 < N <= S-1, parseRangeHeader accepts it and returns the single range
with Start = S-1-N and End = S-1, a window spanning N+1 bytes. -/
theorem c10_suffix_range (ds : List Char) (S : Int) (hne : ds ≠ [])
    (hdig : ds.all isDigitChar = true)
    (hfit : (decVal ds : Int) ≤ 2 ^ 63 - 1)
    (hpos : 0 < (decVal ds : Int)) (_hle : (decVal ds : Int) ≤ S - 1) :
    parseRangeHeader ('b' :: 'y' :: 't' :: 'e' :: 's' :: '=' :: '-' :: ds) S =
      .ok [⟨S - 1 - (decVal ds : Int), S - 1⟩] ∧
    (S - 1) - (S - 1 - (decVal ds : Int)) + 1 = (decVal ds : Int) + 1 := by
  have hds : ∀ c ∈ ds, isDigitChar c = true := List.all_eq_true.mp hdig
  have hnl : '\n' ∉ ('-' :: ds) := by
    intro hm
    rcases List.mem_cons.mp hm with he | hm2
    · exact absurd he (by decide)
    · exact absurd (hds _ hm2) (by decide)
  have hcm : ',' ∉ ('-' :: ds) := by
    intro hm
    rcases List.mem_cons.mp hm with he | hm2
    · exact absurd he (by decide)
    · exact absurd (hds _ hm2) (by decide)
  have hdm : '-' ∉ ds := fun hm => absurd (hds _ hm) (by decide)
  have hcap : rangeRegexCapture ('b' :: 'y' :: 't' :: 'e' :: 's' :: '=' :: '-' :: ds) =
      if '\n' ∈ ('-' :: ds) then none else some ('-' :: ds) := rfl
  have hone : parseOneRange S ('-' :: ds) = .ok ⟨S - 1 - (decVal ds : Int), S - 1⟩ := by
    have hsplit : splitOnChar '-' ('-' :: ds) = [[], ds] := by
      rw [splitOnChar_cons_sep, splitOnChar_of_not_mem '-' ds hdm]
    have hval : ¬ (S - 1 - (decVal ds : Int) > S - 1 ∨
        S - 1 - (decVal ds : Int) ≥ S ∨ S - 1 ≥ S) := by
      push_neg
      omega
    unfold parseOneRange
    rw [hsplit]
    simp [toInt64_digits ds hne hdig hfit, hval]
    omega
  constructor
  · unfold parseRangeHeader
    rw [hcap, if_neg hnl]
    show parseRanges S (splitOnChar ',' ('-' :: ds)) = _
    rw [splitOnChar_of_not_mem ',' _ hcm]
    unfold parseRanges
    rw [hone]
    rfl
  · omega

/-- Witness for c10_suffix_range at the header "bytes=-5" and size 10. -/
theorem c10_suffix_range_witness :
    parseRangeHeader ['b', 'y', 't', 'e', 's', '=', '-', '5'] 10 = .ok [⟨4, 9⟩] ∧
    (9 : Int) - 4 + 1 = 5 + 1 :=
  have h := c10_suffix_range ['5'] 10 (by decide) (by decide) (by decide)
    (by decide) (by decide)
  ⟨h.1.trans (by decide), by omega⟩

/-! ## The traversal without skip signals is a filter -/

theorem extractGo_noSkip (restrict : Option (List Char))
    (handler : GoFile → Bool × HRes) (p : GoFile → Bool)
    (hh : ∀ f, handler f = (p f, HRes.ok)) (entries : List GoFile) :
    extractGo restrict handler entries =
      entries.filter (fun f => includedB restrict f.nameInArchive && p f) := by
  have haux : ∀ (l : List GoFile) (acc : List GoFile),
      (l.foldl (extractStep restrict handler) (acc, [])).1 =
        acc ++ l.filter (fun f => includedB restrict f.nameInArchive && p f) := by
    intro l
    induction l with
    | nil => intro acc; simp
    | cons f rest ih =>
      intro acc
      by_cases hinc : includedB restrict f.nameInArchive = true
      · have hstep : extractStep restrict handler (acc, []) f =
            ((if p f = true then acc ++ [f] else acc), []) := by
          simp [extractStep, hinc, skippedB, hh f]
        rw [List.foldl_cons, hstep]
        by_cases hp : p f = true
        · rw [if_pos hp, ih (acc ++ [f]), List.filter_cons_of_pos (by simp [hinc, hp])]
          simp
        · rw [if_neg hp, ih acc, List.filter_cons_of_neg (by simp [hinc, hp])]
      · have hstep : extractStep restrict handler (acc, []) f = (acc, []) := by
          simp [extractStep, Bool.eq_false_iff.mpr hinc]
        rw [List.foldl_cons, hstep, ih acc,
          List.filter_cons_of_neg (by simp [Bool.eq_false_iff.mpr hinc])]
  exact haux entries []

/-! ## Claim C4 -/

theorem count_one_suffix_bool (s : List Char) :
    ((s.count '/' == 1) && goHasSuf s ['/']) =
      ((s.getLast? == some '/') && (s.dropLast.count '/' == 0)) := by
  rcases List.eq_nil_or_concat s with rfl | ⟨t, a, rfl⟩
  · rfl
  · simp only [List.concat_eq_append]
    by_cases ha : a = '/'
    · subst ha
      have hsuf : goHasSuf (t ++ ['/']) ['/'] = true := by
        simp [goHasSuf, List.isSuffixOf_iff_suffix]
      rw [hsuf, List.getLast?_concat, List.dropLast_concat]
      simp only [List.count_append, Bool.and_true, beq_self_eq_true, Bool.true_and]
      cases h : t.count '/' <;> rfl
    · have hsuf : goHasSuf (t ++ [a]) ['/'] = false := by
        rw [Bool.eq_false_iff]
        intro hs
        obtain ⟨t2, ht2⟩ := (goHasSuf_singleton_iff _ _).mp hs
        have := congrArg List.getLast? ht2
        rw [List.getLast?_concat, List.getLast?_concat] at this
        exact ha (Option.some.injEq _ _ ▸ this.symm ▸ rfl)
      have hlast : ((t ++ [a]).getLast? == some '/') = false := by
        rw [List.getLast?_concat]
        simpa using ha
      rw [hsuf, hlast]
      simp

theorem DirFilterKeep_eq_spec (dir : List Char) (f : GoFile) :
    DirFilterKeep dir f = specDirKeep dir f := by
  simp only [DirFilterKeep, specDirKeep]
  rw [count_one_suffix_bool]

/-- Claim C4: for every directory path P ending in "/", the directory
filter (as run by ExtractDirs over the full entry stream) keeps exactly
the entries whose slash-anchored archive name, with the P prefix
stripped, contains zero slashes and is nonempty, or whose stripped name
has exactly one slash, occurring at the end (last character a slash and
no slash before it). -/
theorem c4_dir_filter (entries : List GoFile) (P : List Char)
    (_hP : goHasSuf P ['/'] = true) :
    ExtractDirs entries P = entries.filter (specDirKeep P) := by
  unfold ExtractDirs
  rw [extractGo_noSkip none (DirFilterH P) (DirFilterKeep P) (fun _ => rfl) entries]
  exact List.filter_congr (fun f _ => by
    simp [includedB, DirFilterKeep_eq_spec])

/-- Witness for c4_dir_filter at the spec's worked example: entries a/,
a/b.txt, a/c/, a/c/d.txt with path /a/ keep exactly a/b.txt and a/c/. -/
theorem c4_dir_filter_witness :
    ExtractDirs exampleEntries ['/', 'a', '/'] =
      [⟨['a', '/', 'b', '.', 't', 'x', 't'], false⟩, ⟨['a', '/', 'c', '/'], true⟩] :=
  (c4_dir_filter exampleEntries ['/', 'a', '/'] (by decide)).trans (by decide)

/-! ## Claim C8 -/

/-- Claim C8: for every normalized path P starting with "/", the cascade
extraction yields exactly the entries of the full recursive subtree
strictly below P (every entry whose slash-anchored name has P as a proper
prefix), with no restriction at all when P is "/". -/
theorem c8_cascade (entries : List GoFile) (P : List Char)
    (hroot : goHasPre P ['/'] = true) :
    CascadeExtractDirs entries P = entries.filter (specCascadeKeep P) := by
  simp only [CascadeExtractDirs]
  by_cases hP : P = ['/']
  · subst hP
    rw [if_pos rfl, extractGo_noSkip none NoFilterH (fun _ => true) (fun _ => rfl)]
    exact List.filter_congr (fun f _ => by simp [includedB, specCascadeKeep])
  · rw [if_neg hP, extractGo_noSkip _ NoFilterH (fun _ => true) (fun _ => rfl)]
    obtain ⟨Q, rfl⟩ : ∃ Q, P = '/' :: Q := by
      cases P with
      | nil => cases hroot
      | cons c r =>
        have hc : ('/' == c) = true := by
          simpa [goHasPre, List.isPrefixOf] using hroot
        exact ⟨r, by rw [eq_of_beq hc]⟩
    have htrim : goTrimPre ('/' :: Q) ['/'] = Q := by
      simp [goTrimPre, List.isPrefixOf]
    rw [htrim]
    apply List.filter_congr
    intro f _
    by_cases hq : f.nameInArchive = Q
    · simp [includedB, specCascadeKeep, hP, hq, List.isPrefixOf]
    · simp [includedB, specCascadeKeep, hP, hq, List.isPrefixOf]

/-- Witness for c8_cascade at the spec's worked example: entries a/,
a/b.txt, a/c/, a/c/d.txt with path /a/ yield a/b.txt, a/c/ and
a/c/d.txt. -/
theorem c8_cascade_witness :
    CascadeExtractDirs exampleEntries ['/', 'a', '/'] =
      [⟨['a', '/', 'b', '.', 't', 'x', 't'], false⟩, ⟨['a', '/', 'c', '/'], true⟩,
       ⟨['a', '/', 'c', '/', 'd', '.', 't', 'x', 't'], false⟩] :=
  (c8_cascade exampleEntries ['/', 'a', '/'] (by decide)).trans (by decide)

/-! ## Claim C5: helper lemmas -/

theorem dropWhile_head_false (p : Char → Bool) (l : List Char) (a : Char)
    (t : List Char) (h : l.dropWhile p = a :: t) : p a = false := by
  induction l with
  | nil => cases h
  | cons c r ih =>
    rw [List.dropWhile_cons] at h
    by_cases hp : p c = true
    · exact ih (by rwa [if_pos hp] at h)
    · rw [if_neg hp] at h
      cases h
      exact Bool.eq_false_iff.mpr hp

theorem foldl_cleanPush_real (segs : List (List Char)) :
    ∀ (stack : List (List Char)),
      (∀ s ∈ segs, s ≠ [] ∧ s ≠ ['.'] ∧ s ≠ ['.', '.']) →
      segs.foldl (cleanPush false) stack = stack ++ segs := by
  induction segs with
  | nil => intro stack _; simp
  | cons s rest ih =>
    intro stack h
    have hs := h s (List.mem_cons_self s rest)
    have hstep : cleanPush false stack s = stack ++ [s] := by
      unfold cleanPush
      rw [if_neg (by push_neg; exact ⟨hs.1, hs.2.1⟩), if_neg hs.2.2]
    rw [List.foldl_cons, hstep, ih (stack ++ [s]) (fun x hx => h x (List.mem_cons_of_mem s hx))]
    simp

theorem splitOnChar_concat_sep (sep : Char) (t : List Char) :
    splitOnChar sep (t ++ [sep]) = splitOnChar sep t ++ [[]] := by
  simpa [splitOnChar] using splitOnChar_append_sep sep t []

theorem cleanRel_no_trailing (n : List Char) (hcl : cleanRel n = true) :
    goHasSuf n ['/'] = false := by
  rw [Bool.eq_false_iff]
  intro hs
  obtain ⟨t, rfl⟩ := (goHasSuf_singleton_iff _ _).mp hs
  have hmem : ([] : List Char) ∈ splitOnChar '/' (t ++ ['/']) := by
    rw [splitOnChar_concat_sep]
    simp
  have h2 := List.all_eq_true.mp hcl _ hmem
  simp at h2

/-- For a normalized archive-relative name, the slash-anchored parent
directory computed through path.Dir (with "." replaced by the empty
string) is a prefix of the slash-anchored name, so the file filter's
prefix test accepts the exact target entry. -/
theorem goDir_anchored_pre (n : List Char) (hcl : cleanRel n = true) :
    ('/' :: (if goDir n = ['.'] then [] else goDir n)).isPrefixOf ('/' :: n) = true := by
  by_cases hmem : '/' ∈ n
  · have hmemrev : '/' ∈ n.reverse := List.mem_reverse.mpr hmem
    have hne : n.reverse.dropWhile (fun c => !(c == '/')) ≠ [] := by
      rw [Ne, List.dropWhile_eq_nil_iff]
      push_neg
      exact ⟨'/', hmemrev, by simp⟩
    obtain ⟨h0, r, hdrop⟩ : ∃ h0 r,
        n.reverse.dropWhile (fun c => !(c == '/')) = h0 :: r := by
      cases hd : n.reverse.dropWhile (fun c => !(c == '/')) with
      | nil => exact absurd hd hne
      | cons x y => exact ⟨x, y, rfl⟩
    have hh0 : h0 = '/' := by
      have := dropWhile_head_false _ _ _ _ hdrop
      simpa using this
    subst hh0
    have hsplitn : n.reverse = n.reverse.takeWhile (fun c => !(c == '/')) ++ '/' :: r := by
      rw [← hdrop, List.takeWhile_append_dropWhile]
    have hn : n = r.reverse ++ '/' :: (n.reverse.takeWhile (fun c => !(c == '/'))).reverse := by
      have h2 := congrArg List.reverse hsplitn
      rw [List.reverse_reverse] at h2
      have h3 : (n.reverse.takeWhile (fun c => !(c == '/')) ++ '/' :: r).reverse =
          r.reverse ++ '/' :: (n.reverse.takeWhile (fun c => !(c == '/'))).reverse := by
        rw [List.reverse_append]
        simp
      exact h2.trans h3
    have hbase_no : '/' ∉ (n.reverse.takeWhile (fun c => !(c == '/'))).reverse := by
      intro hx
      have hxb := List.mem_takeWhile_imp (List.mem_reverse.mp hx)
      simp at hxb
    have htts : takeThroughLastSlash n = r.reverse ++ ['/'] := by
      unfold takeThroughLastSlash
      rw [hdrop]
      simp
    have hsegs : splitOnChar '/' n =
        splitOnChar '/' r.reverse ++
          [(n.reverse.takeWhile (fun c => !(c == '/'))).reverse] := by
      conv_lhs => rw [hn]
      rw [splitOnChar_append_sep, splitOnChar_of_not_mem '/' _ hbase_no]
    have hall : ∀ s ∈ splitOnChar '/' n, s ≠ [] ∧ s ≠ ['.'] ∧ s ≠ ['.', '.'] := by
      intro s hs
      have h2 := List.all_eq_true.mp hcl s hs
      simpa using h2
    have hallpre : ∀ s ∈ splitOnChar '/' r.reverse,
        s ≠ [] ∧ s ≠ ['.'] ∧ s ≠ ['.', '.'] := by
      intro s hs
      exact hall s (by rw [hsegs]; exact List.mem_append_left _ hs)
    obtain ⟨c0, pr, hpre_cons⟩ : ∃ c0 pr, r.reverse = c0 :: pr := by
      cases hpc : r.reverse with
      | nil =>
        exfalso
        have hm : ([] : List Char) ∈ splitOnChar '/' r.reverse := by
          rw [hpc]
          simp [splitOnChar]
        exact (hallpre [] hm).1 rfl
      | cons c0 pr => exact ⟨c0, pr, rfl⟩
    have hc0 : c0 ≠ '/' := by
      intro he
      subst he
      have hm : ([] : List Char) ∈ splitOnChar '/' r.reverse := by
        rw [hpre_cons, splitOnChar_cons_sep]
        exact List.mem_cons_self _ _
      exact (hallpre [] hm).1 rfl
    have hclean : goClean (r.reverse ++ ['/']) = r.reverse := by
      unfold goClean
      rw [if_neg (by simp)]
      have hroot : goHasPre (r.reverse ++ ['/']) ['/'] = false := by
        rw [hpre_cons]
        simp [goHasPre, List.isPrefixOf, beq_eq_false_iff_ne, Ne.symm hc0]
      simp only [hroot, Bool.false_eq_true, if_false]
      rw [splitOnChar_concat_sep, List.foldl_append,
        foldl_cleanPush_real _ [] hallpre]
      have hlast : List.foldl (cleanPush false) ([] ++ splitOnChar '/' r.reverse) [[]] =
          splitOnChar '/' r.reverse := by
        simp [cleanPush]
      rw [hlast, if_neg (splitOnChar_ne_nil '/' r.reverse), joinWith_splitOnChar]
    have hdir : goDir n = r.reverse := by
      unfold goDir
      rw [htts, hclean]
    have hdot : r.reverse ≠ ['.'] := by
      intro he
      have hm : ['.'] ∈ splitOnChar '/' r.reverse := by
        rw [he, splitOnChar_of_not_mem '/' ['.'] (by decide)]
        simp
      exact (hallpre ['.'] hm).2.1 rfl
    rw [hdir, if_neg hdot]
    rw [List.isPrefixOf_iff_prefix]
    refine ⟨'/' :: (n.reverse.takeWhile (fun c => !(c == '/'))).reverse, ?_⟩
    rw [List.cons_append, ← hn]
  · have hdir : goDir n = ['.'] := by
      unfold goDir takeThroughLastSlash
      have hd : n.reverse.dropWhile (fun c => !(c == '/')) = [] := by
        rw [List.dropWhile_eq_nil_iff]
        intro x hx
        have hxn : x ∈ n := List.mem_reverse.mp hx
        have hxe : x ≠ '/' := fun he => hmem (he ▸ hxn)
        simp [hxe]
      rw [hd]
      rfl
    rw [hdir, if_pos rfl]
    simp [List.isPrefixOf]

/-- The file filter accepts the entry whose slash-anchored name is exactly
the requested normalized path: the pruning test never rejects it. -/
theorem fileFilterH_match (n : List Char) (hcl : cleanRel n = true) (f : GoFile)
    (hf : f.nameInArchive = n) (hnd : f.isDir = false) :
    FileFilterH ('/' :: n) f = (true, HRes.ok) := by
  unfold FileFilterH
  rw [hnd, hf]
  simp [goDir_anchored_pre n hcl]

/-- The induction behind claim C5: folding the file filter over any entry
stream, from a state whose recorded entries all match the target and whose
skipped prefixes are all incompatible with the target, records only
matching non-directory entries, and ends empty exactly when it started
empty and no entry of the stream matches. -/
theorem c5_aux (n : List Char) (hcl : cleanRel n = true) :
    ∀ (entries : List GoFile) (acc : List GoFile) (skips : List (List Char)),
      (∀ e ∈ entries, e.isDir = true → goHasSuf e.nameInArchive ['/'] = true) →
      (∀ f ∈ acc, f.nameInArchive = n ∧ f.isDir = false) →
      (∀ s ∈ skips, ∃ d, s = d ++ ['/'] ∧
        ('/' :: d).isPrefixOf ('/' :: n) = false) →
      (∀ f ∈ (entries.foldl (extractStep none (FileFilterH ('/' :: n))) (acc, skips)).1,
          f.nameInArchive = n ∧ f.isDir = false) ∧
      ((entries.foldl (extractStep none (FileFilterH ('/' :: n))) (acc, skips)).1 = [] ↔
        (acc = [] ∧ ∀ e ∈ entries, e.nameInArchive ≠ n)) := by
  intro entries
  induction entries with
  | nil =>
    intro acc skips _ hacc _
    refine ⟨hacc, ?_⟩
    simp
  | cons f rest ih =>
    intro acc skips hdirs hacc hsk
    have hdirs2 : ∀ e ∈ rest, e.isDir = true → goHasSuf e.nameInArchive ['/'] = true :=
      fun e he => hdirs e (List.mem_cons_of_mem f he)
    by_cases hski : skippedB skips f.nameInArchive = true
    · have hfn : f.nameInArchive ≠ n := by
        intro he
        obtain ⟨s, hsm, hsp⟩ := List.any_eq_true.mp hski
        obtain ⟨d, rfl, hdpre⟩ := hsk s hsm
        have h1 : List.IsPrefix (d ++ ['/']) f.nameInArchive :=
          List.isPrefixOf_iff_prefix.mp hsp
        have h2 : List.IsPrefix d n := by
          rw [← he]
          exact (List.prefix_append d ['/']).trans h1
        have h3 : List.IsPrefix ('/' :: d) ('/' :: n) :=
          (List.cons_prefix_cons).mpr ⟨rfl, h2⟩
        rw [List.isPrefixOf_iff_prefix.mpr h3] at hdpre
        cases hdpre
      have hstep : extractStep none (FileFilterH ('/' :: n)) (acc, skips) f =
          (acc, skips) := by
        simp [extractStep, includedB, hski]
      rw [List.foldl_cons, hstep]
      obtain ⟨h1, h2⟩ := ih acc skips hdirs2 hacc hsk
      refine ⟨h1, h2.trans ?_⟩
      constructor
      · rintro ⟨ha, hrest⟩
        refine ⟨ha, ?_⟩
        intro e he
        rcases List.mem_cons.mp he with rfl | hm
        · exact hfn
        · exact hrest e hm
      · rintro ⟨ha, hall2⟩
        exact ⟨ha, fun e he => hall2 e (List.mem_cons_of_mem f he)⟩
    · by_cases hd : f.isDir = true
      · have hfn : f.nameInArchive ≠ n := by
          intro he
          have hsuf := hdirs f (List.mem_cons_self f rest) hd
          rw [he, cleanRel_no_trailing n hcl] at hsuf
          cases hsuf
        have hstep : extractStep none (FileFilterH ('/' :: n)) (acc, skips) f =
            (acc, skips) := by
          simp [extractStep, includedB, hski, FileFilterH, hd]
        rw [List.foldl_cons, hstep]
        obtain ⟨h1, h2⟩ := ih acc skips hdirs2 hacc hsk
        refine ⟨h1, h2.trans ?_⟩
        constructor
        · rintro ⟨ha, hrest⟩
          refine ⟨ha, ?_⟩
          intro e he
          rcases List.mem_cons.mp he with rfl | hm
          · exact hfn
          · exact hrest e hm
        · rintro ⟨ha, hall2⟩
          exact ⟨ha, fun e he => hall2 e (List.mem_cons_of_mem f he)⟩
      · have hd2 : f.isDir = false := Bool.eq_false_iff.mpr hd
        by_cases hpre : ('/' :: (if goDir f.nameInArchive = ['.'] then []
            else goDir f.nameInArchive)).isPrefixOf ('/' :: n) = true
        · by_cases heq : f.nameInArchive = n
          · have hstep : extractStep none (FileFilterH ('/' :: n)) (acc, skips) f =
                (acc ++ [f], skips) := by
              have hmatch := fileFilterH_match n hcl f heq hd2
              simp [extractStep, includedB, hski, hmatch]
            rw [List.foldl_cons, hstep]
            have hacc2 : ∀ g ∈ acc ++ [f], g.nameInArchive = n ∧ g.isDir = false := by
              intro g hg
              rcases List.mem_append.mp hg with hm | hm
              · exact hacc g hm
              · rw [List.mem_singleton.mp hm]
                exact ⟨heq, hd2⟩
            obtain ⟨h1, h2⟩ := ih (acc ++ [f]) skips hdirs2 hacc2 hsk
            refine ⟨h1, ?_⟩
            rw [h2]
            constructor
            · rintro ⟨ha, _⟩
              cases acc <;> cases ha
            · rintro ⟨_, hall2⟩
              exact absurd heq (hall2 f (List.mem_cons_self f rest))
          · have hstep : extractStep none (FileFilterH ('/' :: n)) (acc, skips) f =
                (acc, skips) := by
              have hne2 : ('/' :: n ≠ '/' :: f.nameInArchive) := by
                intro he
                exact heq (List.cons_injective he).symm
              simp [extractStep, includedB, hski, FileFilterH, hd2, hpre, hne2]
            rw [List.foldl_cons, hstep]
            obtain ⟨h1, h2⟩ := ih acc skips hdirs2 hacc hsk
            refine ⟨h1, h2.trans ?_⟩
            constructor
            · rintro ⟨ha, hrest⟩
              refine ⟨ha, ?_⟩
              intro e he
              rcases List.mem_cons.mp he with rfl | hm
              · exact heq
              · exact hrest e hm
            · rintro ⟨ha, hall2⟩
              exact ⟨ha, fun e he => hall2 e (List.mem_cons_of_mem f he)⟩
        · have hpre2 : ('/' :: (if goDir f.nameInArchive = ['.'] then []
              else goDir f.nameInArchive)).isPrefixOf ('/' :: n) = false :=
            Bool.eq_false_iff.mpr hpre
          have hfn : f.nameInArchive ≠ n := by
            intro he
            rw [he, goDir_anchored_pre n hcl] at hpre2
            cases hpre2
          have hdirdot : goDir f.nameInArchive ≠ ['.'] := by
            intro he
            rw [if_pos he] at hpre2
            simp [List.isPrefixOf] at hpre2
          have hstep : extractStep none (FileFilterH ('/' :: n)) (acc, skips) f =
              (acc, skips ++ [goDir f.nameInArchive ++ ['/']]) := by
            simp [extractStep, includedB, hski, FileFilterH, hd2, hpre2]
          rw [List.foldl_cons, hstep]
          have hsk2 : ∀ s ∈ skips ++ [goDir f.nameInArchive ++ ['/']],
              ∃ d, s = d ++ ['/'] ∧ ('/' :: d).isPrefixOf ('/' :: n) = false := by
            intro s hs
            rcases List.mem_append.mp hs with hm | hm
            · exact hsk s hm
            · rw [List.mem_singleton.mp hm]
              exact ⟨goDir f.nameInArchive, rfl, by rwa [if_neg hdirdot] at hpre2⟩
          obtain ⟨h1, h2⟩ := ih acc _ hdirs2 hacc hsk2
          refine ⟨h1, h2.trans ?_⟩
          constructor
          · rintro ⟨ha, hrest⟩
            refine ⟨ha, ?_⟩
            intro e he
            rcases List.mem_cons.mp he with rfl | hm
            · exact hfn
            · exact hrest e hm
          · rintro ⟨ha, hall2⟩
            exact ⟨ha, fun e he => hall2 e (List.mem_cons_of_mem f he)⟩

/-- Claim C5: for every normalized file path "/" ++ n (n with clean
slash-separated segments) over a stream whose directory entries carry
trailing-slash names, ExtractFile errors with "file not found" exactly
when no entry's name is n, and whenever some entry's name is n the result
is a non-directory entry with that name (the file filter's pruning of
sibling subtrees never skips the target). -/
theorem c5_extract_file (entries : List GoFile) (n : List Char)
    (hcl : cleanRel n = true)
    (hdirs : ∀ e ∈ entries, e.isDir = true → goHasSuf e.nameInArchive ['/'] = true) :
    (ExtractFile entries ('/' :: n) = .err "file not found" ↔
      ∀ e ∈ entries, e.nameInArchive ≠ n) ∧
    ((∃ e ∈ entries, e.nameInArchive = n) →
      ∃ r, ExtractFile entries ('/' :: n) = .ok r ∧
        r.nameInArchive = n ∧ r.isDir = false) := by
  obtain ⟨h1, h2⟩ := c5_aux n hcl entries [] [] hdirs (by simp) (by simp)
  have hres : ExtractFile entries ('/' :: n) =
      match (entries.foldl (extractStep none (FileFilterH ('/' :: n))) ([], [])).1 with
      | [] => GoResult.err "file not found"
      | f :: _ => GoResult.ok f := rfl
  constructor
  · constructor
    · intro herr
      refine (h2.mp ?_).2
      cases hc : (entries.foldl (extractStep none (FileFilterH ('/' :: n))) ([], [])).1 with
      | nil => rfl
      | cons r t =>
        rw [hres, hc] at herr
        cases herr
    · intro hnone
      rw [hres, h2.mpr ⟨rfl, hnone⟩]
  · rintro ⟨e, he, hen⟩
    have hnonempty : (entries.foldl (extractStep none (FileFilterH ('/' :: n))) ([], [])).1 ≠ [] := by
      intro h0
      exact (h2.mp h0).2 e he hen
    cases hc : (entries.foldl (extractStep none (FileFilterH ('/' :: n))) ([], [])).1 with
    | nil => exact absurd hc hnonempty
    | cons r t =>
      have hr := h1 r (by rw [hc]; exact List.mem_cons_self r t)
      refine ⟨r, ?_, hr.1, hr.2⟩
      rw [hres, hc]

/-- Witness for c5_extract_file at the spec's worked example: the path
/a/c/d.txt yields exactly that entry, and /a/missing.txt yields the
"file not found" error. -/
theorem c5_extract_file_witness :
    ExtractFile exampleEntries
        ('/' :: ['a', '/', 'c', '/', 'd', '.', 't', 'x', 't']) =
      .ok ⟨['a', '/', 'c', '/', 'd', '.', 't', 'x', 't'], false⟩ ∧
    ExtractFile exampleEntries
        ('/' :: ['a', '/', 'm', 'i', 's', 's', 'i', 'n', 'g', '.', 't', 'x', 't']) =
      .err "file not found" := by
  constructor
  · obtain ⟨r, hok, hrn, hrd⟩ :=
      (c5_extract_file exampleEntries ['a', '/', 'c', '/', 'd', '.', 't', 'x', 't']
        (by decide) (by decide)).2
        ⟨⟨['a', '/', 'c', '/', 'd', '.', 't', 'x', 't'], false⟩, by decide, rfl⟩
    have hr : r = ⟨['a', '/', 'c', '/', 'd', '.', 't', 'x', 't'], false⟩ := by
      cases r
      simp_all
    rw [← hr]
    exact hok
  · exact (c5_extract_file exampleEntries
      ['a', '/', 'm', 'i', 's', 's', 'i', 'n', 'g', '.', 't', 'x', 't']
      (by decide) (by decide)).1.mpr (by decide)

end RADS
